import Mathlib

/-!
Verification of the cleave relay/pipeline orchestration engine.

This file gives a shallow embedding of the orchestration core of the
cleave repository (package `cleave-sdk`): the detection engine
(`src/detection.ts`), knowledge compaction (`src/state/knowledge.ts`),
the file mutex (`src/utils/lock.ts`), the session launcher's rescue
handoff (`src/session.ts`), pipeline DAG validation
(`src/pipeline-config.ts`) and the relay core loop
(`src/relay-loop.ts`), together with theorems settling the testable
properties stated in the repository's specification.

Filesystem reads are modelled by passing file contents as `Option String`
(`none` = the file does not exist), subprocesses by explicit outcome
records, and PIDs/liveness by an explicit `alive : Nat → Bool` map.
JavaScript strings are modelled as Lean `String`; the inputs of interest
are ASCII, where JS UTF-16 lengths, `toLowerCase` and `trim` coincide
with the character-level model used here.
-/

namespace Cleave

/-- Whitespace characters relevant to the JS `\s` class and `String.trim`
for the ASCII inputs handled by the orchestrator. -/
def isWsChar (c : Char) : Bool :=
  c = ' ' || c = '\t' || c = '\n' || c = '\r' || c = '\x0c' || c = '\x0b'

/-- JS `String.prototype.trim`: strip whitespace from both ends. -/
def jsTrim (s : String) : String :=
  ⟨((s.data.dropWhile isWsChar).reverse.dropWhile isWsChar).reverse⟩

/-- JS `String.prototype.toLowerCase` (ASCII model). -/
def toLowerStr (s : String) : String :=
  ⟨s.data.map Char.toLower⟩

/-- JS `haystack.includes(needle)`: substring containment. -/
def strContains (haystack needle : String) : Bool :=
  decide (needle.data <:+: haystack.data)

/-- JS `s.startsWith(pfx)`. -/
def strStartsWith (s pfx : String) : Bool :=
  decide (pfx.data <+: s.data)

/-- JS `content.split('\n')` on the underlying character list.  Always
returns a non-empty list; `split` of `""` is `[""]`. -/
def splitNl : List Char → List (List Char)
  | [] => [[]]
  | c :: cs =>
    match splitNl cs with
    | [] => [[]]
    | l :: ls => if c = '\n' then [] :: l :: ls else (c :: l) :: ls

/-- JS `lines.join('\n')` on character lists. -/
def joinNl : List (List Char) → List Char
  | [] => []
  | [l] => l
  | l :: ls => l ++ '\n' :: joinNl ls

/-- Split a file's content into its lines, as in JS `content.split('\n')`. -/
def splitLines (s : String) : List String :=
  (splitNl s.data).map (fun l => ⟨l⟩)

/-- Join lines back into a file content, as in JS `lines.join('\n')`. -/
def joinLines (L : List String) : String :=
  ⟨joinNl (L.map String.data)⟩

/-- A line is blank when `l.trim()` is falsy, i.e. every character is
whitespace (used by `textSimilarity`'s `filter(l => l.trim())`). -/
def isBlankLine (l : String) : Bool :=
  l.data.all isWsChar

-- ── Detection Engine (src/cleave-sdk/src/detection.ts) ──

/-- Non-blank lines of a text: `text.split('\n').filter(l => l.trim())`. -/
def nonBlankLines (t : String) : List String :=
  (splitLines t).filter (fun l => !isBlankLine l)

/-- JS `Math.round((m / M) * 100)` for naturals `m ≤ M`, `0 < M`
(round half away from zero, here half up since values are non-negative). -/
def roundPct (m M : Nat) : Nat :=
  (200 * m + M) / (2 * M)

/-- `textSimilarity` from `detection.ts`: line-level overlap of the
non-blank lines, as the fraction of `textA`'s non-blank lines that occur
verbatim among `textB`'s (`setB.has(line)`), over the larger line count,
rounded to a percentage. -/
def textSimilarity (textA textB : String) : Nat :=
  if textA = "" && textB = "" then 100
  else if textA = "" || textB = "" then 0
  else
    let linesA := nonBlankLines textA
    let linesB := nonBlankLines textB
    if linesA.isEmpty && linesB.isEmpty then 100
    else if linesA.isEmpty || linesB.isEmpty then 0
    else
      let matchCount := (linesA.filter (fun l => decide (l ∈ linesB))).length
      roundPct matchCount (max linesA.length linesB.length)

/-- Result record of `detectLoop` (`{ isLoop, similarity }`). -/
structure LoopResult where
  isLoop : Bool
  similarity : Nat
deriving DecidableEq, Repr

/-- `detectLoop` from `detection.ts`.  `prevContent` and `currContent`
are the archived previous next-task text and the current one (`none`
when the corresponding file does not exist).  The size pre-check
`sizeDiff > prevContent.length * 0.2` is modelled exactly as
`5 * sizeDiff > prevContent.length` (the inputs of interest keep the
IEEE computation and the exact rational one on the same side). -/
def detectLoop (prevContent currContent : Option String) (sessionNum : Nat)
    (threshold : Nat) : LoopResult :=
  if sessionNum < 2 then ⟨false, 0⟩
  else
    match prevContent, currContent with
    | some prev, some curr =>
      let sizeDiff := max prev.length curr.length - min prev.length curr.length
      if 5 * sizeDiff > prev.length then ⟨false, 0⟩
      else
        let s := textSimilarity prev curr
        ⟨decide (s > threshold), s⟩
    | _, _ => ⟨false, 0⟩

/-- `isComplete` from `detection.ts`: search the first 10 lines of the
progress record for the marker, case-insensitively, as a plain substring
(`firstLines.toLowerCase().includes(marker.toLowerCase())`). -/
def isComplete (progressContent : Option String) (marker : String) : Bool :=
  match progressContent with
  | none => false
  | some content =>
    let firstLines := joinLines ((splitLines content).take 10)
    strContains (toLowerStr firstLines) (toLowerStr marker)

-- ── STATUS-anchored marker matching (src/cleave-sdk/src/session.ts) ──

/-- Characters the pattern `[\s#*]*` tolerates before `STATUS`. -/
def isAnchorFill (c : Char) : Bool :=
  isWsChar c || c = '#' || c = '*'

/-- Characters of the separator class `[:\s*]` after `STATUS`. -/
def isSepChar (c : Char) : Bool :=
  c = ':' || isWsChar c || c = '*'

/-- Case-insensitive prefix test on character lists (the regexes carry
the `i` flag). -/
def ciPrefix : List Char → List Char → Bool
  | [], _ => true
  | _ :: _, [] => false
  | p :: ps, c :: cs => (p.toLower = c.toLower) && ciPrefix ps cs

/-- Match `[:\s*]+\s*(?:marker|sentinel)` at the start of `s`: consume
one or more separator characters, trying the two alternatives at every
cut (the regex engine's backtracking). -/
def matchSep (marker sentinel : List Char) : List Char → Bool
  | [] => false
  | c :: cs =>
    if isSepChar c then
      (ciPrefix marker cs || ciPrefix sentinel cs) || matchSep marker sentinel cs
    else false

/-- Match `[\s#*]*STATUS[:\s*]+\s*(?:marker|sentinel)` at the start of a
position.  `S` is not in the fill class, so the greedy `[\s#*]*` is
deterministic. -/
def matchStatusAt (marker sentinel : List Char) (s : List Char) : Bool :=
  let rest := s.dropWhile isAnchorFill
  if ciPrefix "STATUS".data rest then
    matchSep marker sentinel (rest.drop 6)
  else false

/-- Suffixes of `s` that start right after a newline (the positions the
`m` flag anchors `^` to, besides the start of the string). -/
def afterNewlines : List Char → List (List Char)
  | [] => []
  | c :: cs => if c = '\n' then cs :: afterNewlines cs else afterNewlines cs

/-- The `statusPattern` test of `isHandoffReady` (`session.ts`):
`/^[\s#*]*STATUS[:\s*]+\s*(?:<marker>|TASK_FULLY_COMPLETE)/im` tested
against the progress record (the marker is regex-escaped in the source,
hence literal). -/
def statusLineMatch (marker content : String) : Bool :=
  (content.data :: afterNewlines content.data).any
    (matchStatusAt marker.data "TASK_FULLY_COMPLETE".data)

-- ── Knowledge compaction (src/cleave-sdk/src/state/knowledge.ts) ──

/-- Result record of `compactKnowledge` (`{ pruned, oldLines, newLines }`). -/
structure CompactResult where
  pruned : Bool
  oldLines : Nat
  newLines : Nat
deriving DecidableEq, Repr

/-- A rolling-log entry heading: `line.startsWith('### Session')`. -/
def isSessionEntryLine (l : String) : Bool :=
  strStartsWith l "### Session"

/-- The Session Log section header: `line.startsWith('## Session Log')`. -/
def isLogHeaderLine (l : String) : Bool :=
  strStartsWith l "## Session Log"

/-- Indices of the entry headings of a line list, in increasing order
(the `logSection.forEach((line, i) => { ... entryStarts.push(i) })`
accumulation). -/
def entryIdxs : List String → List Nat
  | [] => []
  | l :: ls =>
    if isSessionEntryLine l then 0 :: (entryIdxs ls).map (· + 1)
    else (entryIdxs ls).map (· + 1)

/-- `compactKnowledge` from `state/knowledge.ts`, on the knowledge file's
content (`none` = file absent).  Returns the result record and the file
content after the call.  JS `entryStarts.slice(-keepSessions)` is the
last `keepSessions` elements, except that `slice(-0)` is the whole
array. -/
def compactKnowledge (file : Option String) (keepSessions : Nat) :
    CompactResult × Option String :=
  match file with
  | none => (⟨false, 0, 0⟩, none)
  | some content =>
    let lines := splitLines content
    let entryCount := (lines.filter isSessionEntryLine).length
    if entryCount ≤ keepSessions then (⟨false, lines.length, lines.length⟩, some content)
    else
      match lines.findIdx? isLogHeaderLine with
      | none => (⟨false, lines.length, lines.length⟩, some content)
      | some logHeaderIndex =>
        let headerSection := lines.take (logHeaderIndex + 2)
        let logSection := lines.drop (logHeaderIndex + 2)
        let entryStarts := entryIdxs logSection
        let entriesToKeep :=
          if keepSessions = 0 then entryStarts
          else entryStarts.drop (entryStarts.length - keepSessions)
        match entriesToKeep with
        | [] => (⟨false, lines.length, lines.length⟩, some content)
        | first :: _ =>
          let keptSection := logSection.drop first
          let newContent := joinLines (headerSection ++ keptSection)
          (⟨true, lines.length, (splitLines newContent).length⟩, some newContent)

/-- Number of rolling-log entry headings in a line list. -/
def countEntries (L : List String) : Nat :=
  (L.filter isSessionEntryLine).length

/-- A well-formed rolling-log block: one entry heading followed by body
lines that are not entry headings. -/
def WFBlock (b : List String) : Prop :=
  ∃ hd tl, b = hd :: tl ∧ isSessionEntryLine hd = true
    ∧ ∀ l ∈ tl, isSessionEntryLine l = false

/-- Offsets of the block starts inside the flattened block list. -/
def blockOffsets : List (List String) → List Nat
  | [] => []
  | b :: bs => 0 :: (blockOffsets bs).map (· + b.length)

-- ── File mutex (src/cleave-sdk/src/utils/lock.ts) ──

/-- Value of a digit string. -/
def digitsToNat (ds : List Char) : Nat :=
  ds.foldl (fun n c => 10 * n + (c.toNat - '0'.toNat)) 0

/-- JS `parseInt(s.trim(), 10)` for the lock file's content: the leading
run of digits, `none` when there is none (`NaN`).  Signs and exotic
forms do not occur — the file is written as `String(process.pid)`. -/
def parsePid (s : String) : Option Nat :=
  let ds := (jsTrim s).data.takeWhile Char.isDigit
  if ds.isEmpty then none else some (digitsToNat ds)

namespace FileLock

/-- `cleanStaleLock`: remove the lock file when its recorded PID is
corrupted or belongs to a dead process (`process.kill(pid, 0)` throws);
keep it when the process is alive.  The state is the lock file's content
(`none` = absent); `alive` is process liveness. -/
def cleanStaleLock (alive : Nat → Bool) (lockFile : Option String) : Option String :=
  match lockFile with
  | none => none
  | some content =>
    match parsePid content with
    | none => none
    | some pid => if alive pid then some content else none

/-- `acquire`: clean a stale lock, then create the lock file with
`O_CREAT | O_EXCL` (`openSync 'wx'`, which fails with `EEXIST` iff the
file still exists) and write our PID.  Returns whether acquisition
succeeded and the resulting lock file state. -/
def acquire (alive : Nat → Bool) (self : Nat) (lockFile : Option String) :
    Bool × Option String :=
  match cleanStaleLock alive lockFile with
  | none => (true, some (toString self))
  | some content => (false, some content)

/-- `release`: when this instance holds the lock (`acquired` flag),
delete the lock file only if it still records our own PID
(`pidStr === String(process.pid)` after `trim()`). -/
def release (self : Nat) (acquired : Bool) (lockFile : Option String) : Option String :=
  if acquired then
    match lockFile with
    | none => none
    | some content => if jsTrim content = toString self then none else some content
  else lockFile

end FileLock

-- ── Rescue handoff (src/cleave-sdk/src/session.ts) ──

/-- The rescue `PROGRESS.md` content written by `writeRescueHandoff`
(the template string of `session.ts`, split so that the referenced
values sit at append boundaries). -/
def rescueProgress (sessionNum : Nat) (exitCode : Int) (toolUseCount : Nat)
    (lastToolName : String) (existingProgress : String) : String :=
  "## "
    ++ "STATUS: IN_PROGRESS"
    ++ "\n\n## Rescue Handoff (auto-generated by Cleave SDK)\nSession #"
    ++ toString sessionNum
    ++ " exited (code "
    ++ toString exitCode
    ++ ") without completing handoff.\nThe session made progress ("
    ++ toString toolUseCount
    ++ " tool calls, last: "
    ++ lastToolName
    ++ ") but\nran out of context or hit an error before writing handoff files.\n\n"
    ++ (if existingProgress = "" then ""
        else "## Previous Progress\n" ++ existingProgress)
    ++ "\n\n## What Happened\n- Session " ++ toString sessionNum
    ++ " started and did work (" ++ toString toolUseCount
    ++ " tool calls)\n- Last tool used: "
    ++ (if lastToolName = "" then "unknown" else lastToolName)
    ++ "\n- Session exited with code " ++ toString exitCode
    ++ " without writing PROGRESS.md or NEXT_PROMPT.md\n"
    ++ "- This rescue handoff was auto-generated to keep the relay chain alive\n\n"
    ++ "## Action for Next Session\n"
    ++ "- Read the original task file to understand the full scope\n"
    ++ "- Check git log and git diff to see what was actually accomplished\n"
    ++ "- Check .cleave/KNOWLEDGE.md for any accumulated notes\n"
    ++ "- Continue from where session " ++ toString sessionNum ++ " left off\n"

/-- The rescue `NEXT_PROMPT.md` content written by `writeRescueHandoff`
(template split at the referenced values). -/
def rescueNextPrompt (sessionNum : Nat) (initialPrompt : String)
    (handoffThreshold : Nat) : String :=
  "# Continue from Session "
    ++ toString sessionNum
    ++ " (Rescue Handoff)\n\nThe previous session (#"
    ++ toString sessionNum
    ++ ") did work but exited without writing handoff files.\nThis is a rescue prompt auto-generated by the Cleave relay system.\n\n## Your First Steps\n1. Run `"
    ++ "git log"
    ++ " --oneline -10` and `git diff --stat` to see what session "
    ++ toString sessionNum
    ++ " actually did\n2. Read `.cleave/PROGRESS.md` for any partial progress notes\n3. Read `.cleave/"
    ++ "KNOWLEDGE.md"
    ++ "` for accumulated knowledge\n4. Continue the work from where session "
    ++ toString sessionNum
    ++ " left off\n\n## Original Task\n"
    ++ (⟨initialPrompt.data.take 3000⟩ : String)
    ++ (if 3000 < initialPrompt.length then
          "\n\n[... truncated — read the original task file for full details]"
        else "")
    ++ "\n\n## Important\n- Do NOT redo work that's already committed\n"
    ++ "- Check git status/diff FIRST before making any changes\n- When at ~"
    ++ toString handoffThreshold ++ "% context, STOP and do the handoff procedure.\n"

/-- The handoff-signal file content written by `writeRescueHandoff`. -/
def rescueSignal : String := "RESCUE_HANDOFF"

/-- Result of `hasValidHandoff` (`{ complete, handedOff }`). -/
structure HandoffCheck where
  complete : Bool
  handedOff : Bool
deriving DecidableEq, Repr

/-- The rescue decision at the end of `runPrintSession`: when the session
was not rate-limited, recorded tool activity, and produced no valid
handoff bundle, the rescue handoff is written and the reported exit code
is forced to 0.  Returns the reported exit code and whether the rescue
handoff was written. -/
def printSessionFinalize (rateLimited : Bool) (toolUseCount : Nat)
    (handoff : HandoffCheck) (exitCode : Int) : Int × Bool :=
  if !rateLimited && decide (0 < toolUseCount)
      && !handoff.complete && !handoff.handedOff then
    (0, true)
  else (exitCode, false)

-- ── Relay core (src/cleave-sdk/src/relay-loop.ts) ──

/-- Milliseconds `handleRateLimit` sleeps for:
`max(resetAt - now + 30_000, 0)` when a reset time was reported, the
default backoff `300_000` otherwise, capped at
`config.rateLimitMaxWait * 1000`. -/
def rateLimitWaitMs (now : Int) (resetAt : Option Int)
    (rateLimitMaxWaitSec : Nat) : Int :=
  let w : Int := match resetAt with
    | some r => max (r - now + 30000) 0
    | none => 300000
  min w ((rateLimitMaxWaitSec : Int) * 1000)

/-- Outcome of one `runSession` call, as the relay core sees it: the
call threw (caught by the `try` around `runSession`), or it returned a
result with an exit code and a rate-limit classification. -/
inductive SessionOutcome where
  | threw
  | finished (exitCode : Int) (rateLimited : Bool)
deriving DecidableEq, Repr

/-- Everything one iteration of the relay core loop observes from the
outside world: the completion check on the progress record before and
after the attempt, the loop-detection verdict, whether prompt
construction succeeded, the session outcome, and whether a configured
verification command ran and passed (`false` covers both "failed" and
"no verification command configured"). -/
structure IterObs where
  completeBefore : Bool
  loopDetected : Bool
  promptOk : Bool
  session : SessionOutcome
  verifyPassed : Bool
  completeAfter : Bool
deriving DecidableEq, Repr

/-- Mirror of `RelayCoreResult`. -/
structure RelayCoreResult where
  completed : Bool
  maxSessionsReached : Bool
  sessionsRun : Nat
  lastSession : Nat
deriving DecidableEq, Repr

/-- The loop's mutable state between iterations of the `while` body. -/
structure RelayState where
  sessionCount : Nat
  consecutiveLoops : Nat
  consecutiveCrashes : Nat
deriving DecidableEq, Repr

/-- Outcome of one loop iteration: return from `runRelayCore`, or
continue with an updated state. -/
inductive StepOut where
  | done (r : RelayCoreResult)
  | next (s : RelayState)
deriving DecidableEq, Repr

/-- One iteration of the `while (sessionCount < maxSessions)` body of
`runRelayCore`, entered with state `s` (the attempt about to run is
session `s.sessionCount + 1`).  Knowledge compaction, archiving and git
commits are wrapped in `try`/`catch` in the source and have no effect on
control flow, so they are not modelled. -/
def relayStep (startSession : Nat) (obs : IterObs) (s : RelayState) : StepOut :=
  let n := s.sessionCount + 1
  if obs.completeBefore then
    .done ⟨true, false, n - startSession, n - 1⟩
  else
    let cl := if obs.loopDetected then s.consecutiveLoops + 1 else 0
    if obs.loopDetected ∧ 3 ≤ cl then
      .done ⟨false, false, n - startSession, n⟩
    else if !obs.promptOk then
      let cc := s.consecutiveCrashes + 1
      if 3 ≤ cc then .done ⟨false, false, n - startSession, n⟩
      else .next ⟨n, cl, cc⟩
    else
      match obs.session with
      | .threw =>
        let cc := s.consecutiveCrashes + 1
        if 3 ≤ cc then .done ⟨false, false, n - startSession, n⟩
        else .next ⟨n, cl, cc⟩
      | .finished exitCode rateLimited =>
        if rateLimited then .next ⟨n - 1, cl, 0⟩
        else if exitCode ≠ 0 then
          let cc := s.consecutiveCrashes + 1
          if 3 ≤ cc then .done ⟨false, false, n - startSession, n⟩
          else if obs.verifyPassed then .done ⟨true, false, n - startSession, n⟩
          else if obs.completeAfter then .done ⟨true, false, n - startSession, n⟩
          else .next ⟨n, cl, cc⟩
        else
          if obs.verifyPassed then .done ⟨true, false, n - startSession, n⟩
          else if obs.completeAfter then .done ⟨true, false, n - startSession, n⟩
          else .next ⟨n, cl, 0⟩

/-- The `while` loop of `runRelayCore`, fuel-indexed, over an
environment `env` giving the observations of each successive attempt
(`env i` for the `i`-th iteration of the body).  `none` means the fuel
ran out before the loop returned. -/
def runRelayAux (startSession maxSessions : Nat) (env : Nat → IterObs) :
    Nat → Nat → RelayState → Option RelayCoreResult
  | 0, _, _ => none
  | fuel + 1, i, s =>
    if s.sessionCount < maxSessions then
      match relayStep startSession (env i) s with
      | .done r => some r
      | .next s1 => runRelayAux startSession maxSessions env fuel (i + 1) s1
    else
      some ⟨false, true, s.sessionCount - startSession, s.sessionCount⟩

/-- Mirror of `runRelayCore opts`: run the loop from
`sessionCount = startSession` with zeroed loop/crash counters. -/
def runRelayCore (startSession maxSessions fuel : Nat) (env : Nat → IterObs) :
    Option RelayCoreResult :=
  runRelayAux startSession maxSessions env fuel 0 ⟨startSession, 0, 0⟩

-- ── Pipeline DAG validation (src/cleave-sdk/src/pipeline-config.ts) ──

/-- One pipeline stage's fields relevant to validation.  `requiresList`
models the stage's `requires` array (normalised to `[]` when absent). -/
structure StageConfig where
  name : String
  requiresList : List String
deriving DecidableEq, Repr

/-- `stageMap.get(name)` for the `Map` built by `stageMap.set(s.name, s)`
over the stages in order: the last stage with the name wins. -/
def findStage (stages : List StageConfig) (n : String) : Option StageConfig :=
  stages.foldl (fun acc s => if s.name = n then some s else acc) none

/-- All names a DFS from the stage list can ever see: stage names and
required names. -/
def allNames (stages : List StageConfig) : List String :=
  stages.flatMap (fun s => s.name :: s.requiresList)

mutual

/-- The recursive `visit` of `validateDag`, with explicit fuel (the
source recursion is bounded by the number of distinct names; fuel
sufficiency is proved below).  `visiting` and `visited` model the two
mark sets — `visited` in insertion order — and `trail` the cycle-report
trail.  `none` means the fuel ran out. -/
def visitF (stages : List StageConfig) :
    Nat → String → List String → List String → List String →
    Option (Except String (List String))
  | 0, _, _, _, _ => none
  | fuel + 1, name, trail, visiting, visited =>
    if name ∈ visiting then
      some (.error ("Circular dependency detected: "
        ++ String.intercalate " -> " (trail ++ [name])))
    else if name ∈ visited then some (.ok visited)
    else
      match findStage stages name with
      | none => some (.ok (visited ++ [name]))
      | some stage =>
        match visitDeps stages fuel stage.requiresList (trail ++ [name])
            (name :: visiting) visited with
        | none => none
        | some (.error e) => some (.error e)
        | some (.ok visited1) => some (.ok (visited1 ++ [name]))

/-- The `for (const dep of stage.requires) visit(dep, ...)` loop,
threading the growing `visited` set. -/
def visitDeps (stages : List StageConfig) :
    Nat → List String → List String → List String → List String →
    Option (Except String (List String))
  | _, [], _, _, visited => some (.ok visited)
  | fuel, d :: ds, trail, visiting, visited =>
    match visitF stages fuel d trail visiting visited with
    | none => none
    | some (.error e) => some (.error e)
    | some (.ok visited1) => visitDeps stages fuel ds trail visiting visited1

end

/-- The `for (const stage of stages) visit(stage.name, [])` loop of
`validateDag`. -/
def visitAll (stages : List StageConfig) (fuel : Nat) :
    List String → List String → Option (Except String (List String))
  | [], visited => some (.ok visited)
  | n :: ns, visited =>
    match visitF stages fuel n [] [] visited with
    | none => none
    | some (.error e) => some (.error e)
    | some (.ok visited1) => visitAll stages fuel ns visited1

/-- `validateDag` from `pipeline-config.ts`, with fuel large enough for
the DFS (proved never to run out). -/
def validateDag (stages : List StageConfig) : Option (Except String Unit) :=
  match visitAll stages ((allNames stages).length + 1) (stages.map (·.name)) [] with
  | none => none
  | some (.error e) => some (.error e)
  | some (.ok _) => some (.ok ())

/-- The missing-dependency check of `loadPipelineConfig`, which runs
right after `validateDag`: every required name must be a stage name
(`stageNames.has(dep)`). -/
def checkDepsExist (stages : List StageConfig) : Except String Unit :=
  if stages.all (fun s =>
      s.requiresList.all (fun d => decide (d ∈ stages.map (·.name)))) then
    .ok ()
  else .error "requires a stage which doesn't exist in the pipeline"

/-- The validation `loadPipelineConfig` performs on the stage graph
before any stage runs: `validateDag` followed by the
dependencies-must-exist check. -/
def validatePipeline (stages : List StageConfig) : Option (Except String Unit) :=
  match validateDag stages with
  | none => none
  | some (.error e) => some (.error e)
  | some (.ok _) => some (checkDepsExist stages)

/-- The dependency edge relation of the stage graph: `u` requires `v`
(through the stage the `Map` lookup associates to `u`). -/
def Edge (stages : List StageConfig) (u v : String) : Prop :=
  ∃ s, findStage stages u = some s ∧ v ∈ s.requiresList

/-- Index of the first occurrence of a name in a list (0 when absent at
the end). -/
def idxOf : List String → String → Nat
  | [], _ => 0
  | x :: xs, a => if x = a then 0 else idxOf xs a + 1

/-- A completion order for the DFS: every member's dependencies appear
strictly earlier in the list. -/
def GoodOrder (stages : List StageConfig) (L : List String) : Prop :=
  ∀ u v, Edge stages u v → u ∈ L → v ∈ L ∧ idxOf L v < idxOf L u

-- ── Concrete example inputs ──

/-- Example next-task text with 20 non-blank lines. -/
def exPrev : String :=
  "l01\nl02\nl03\nl04\nl05\nl06\nl07\nl08\nl09\nl10\nl11\nl12\nl13\nl14\nl15\nl16\nl17\nl18\nl19\nl20"

/-- Example next-task text of the same length sharing exactly 17 of
`exPrev`'s 20 lines — an exact 85% line overlap. -/
def exCurr : String :=
  "l01\nl02\nl03\nl04\nl05\nl06\nl07\nl08\nl09\nl10\nl11\nl12\nl13\nl14\nl15\nl16\nl17\nx18\nx19\nx20"

/-- Example progress record whose prose mentions the marker outside any
`STATUS:` line. -/
def exProse : String := "We will mention ALL_COMPLETE in passing."

/-- Example knowledge-base lines: a core section, the Session Log header
and 3 rolling-log entries. -/
def kbLines : List String :=
  ["## Core Knowledge", "fact", "", "## Session Log", "",
   "### Session 1", "a", "### Session 2", "b", "### Session 3", "c"]

/-- The example knowledge base compacted to its last 2 entries. -/
def kbLines2 : List String :=
  ["## Core Knowledge", "fact", "", "## Session Log", "",
   "### Session 2", "b", "### Session 3", "c"]

-- ════════════════════════════════════════════════════════════════════
-- Theorems
-- ════════════════════════════════════════════════════════════════════

-- ── Helper lemmas on the STATUS matcher ──

theorem ciPrefix_toLower : ∀ {p s : List Char}, ciPrefix p s = true →
    p.map Char.toLower <+: s.map Char.toLower
  | [], _, _ => List.nil_prefix
  | _ :: _, [], h => by simp [ciPrefix] at h
  | p :: ps, c :: cs, h => by
    simp only [ciPrefix, Bool.and_eq_true, decide_eq_true_eq] at h
    simp only [List.map_cons]
    exact List.cons_prefix_cons.mpr ⟨h.1, ciPrefix_toLower h.2⟩

theorem afterNewlines_suffix : ∀ {s t : List Char}, t ∈ afterNewlines s → t <:+ s
  | [], _, h => by simp [afterNewlines] at h
  | c :: cs, t, h => by
    simp only [afterNewlines] at h
    by_cases hc : c = '\n'
    · rw [if_pos hc] at h
      rcases List.mem_cons.mp h with rfl | h
      · exact List.suffix_cons c t
      · exact (afterNewlines_suffix h).trans (List.suffix_cons c cs)
    · rw [if_neg hc] at h
      exact (afterNewlines_suffix h).trans (List.suffix_cons c cs)

theorem statusLineMatch_requires_status {marker content : String}
    (h : statusLineMatch marker content = true) :
    strContains (toLowerStr content) "status" = true := by
  unfold statusLineMatch at h
  rw [List.any_eq_true] at h
  obtain ⟨t, ht, hmatch⟩ := h
  have hsuf : t <:+ content.data := by
    rcases List.mem_cons.mp ht with rfl | ht
    · exact List.suffix_refl _
    · exact afterNewlines_suffix ht
  unfold matchStatusAt at hmatch
  by_cases hci : ciPrefix "STATUS".data (t.dropWhile isAnchorFill) = true
  · have h1 := ciPrefix_toLower hci
    have h2 : (t.dropWhile isAnchorFill).map Char.toLower <:+ t.map Char.toLower :=
      (t.dropWhile_suffix isAnchorFill).map Char.toLower
    have h3 : t.map Char.toLower <:+ content.data.map Char.toLower :=
      hsuf.map Char.toLower
    have hstat : "STATUS".data.map Char.toLower = "status".data := by decide
    have : "status".data <:+: content.data.map Char.toLower := by
      rw [← hstat]
      exact (h1.isInfix.trans h2.isInfix).trans h3.isInfix
    simpa [strContains, toLowerStr] using this
  · rw [if_neg hci] at hmatch
    exact absurd hmatch (by simp)

-- ── C2 ──

/-- C2, counterexample: the relay core's completion detection on the
progress record (`isComplete` in `detection.ts`, the function
`runRelayCore` consults) reports a record complete although the marker
only occurs in prose, on no `STATUS:` line (as the second conjunct
certifies via the STATUS-anchored matcher). -/
theorem isComplete_prose_counterexample :
    isComplete (some exProse) "ALL_COMPLETE" = true
      ∧ statusLineMatch "ALL_COMPLETE" exProse = false := by
  constructor <;> decide

/-- C2, amended: the STATUS-anchored completion check used by
`isHandoffReady`/`hasValidHandoff` (`session.ts`) cannot report
completion on a record that does not even contain the text `STATUS`
(case-insensitively); the relay core's `isComplete`, by contrast, is a
plain case-insensitive substring search over the first 10 lines, as the
counterexample shows. -/
theorem statusLineMatch_only_on_status_lines (marker content : String)
    (h : strContains (toLowerStr content) "status" = false) :
    statusLineMatch marker content = false := by
  cases hm : statusLineMatch marker content
  · rfl
  · exact absurd (statusLineMatch_requires_status hm) (by simp [h])

/-- C2, witness for `statusLineMatch_only_on_status_lines` at the prose
example. -/
theorem statusLineMatch_only_on_status_lines_witness :
    statusLineMatch "ALL_COMPLETE" exProse = false :=
  statusLineMatch_only_on_status_lines "ALL_COMPLETE" exProse (by decide)

-- ── C9 ──

/-- C9, counterexample: `textSimilarity` counts each duplicate line of
the first text once per occurrence, so the score is not symmetric:
`"x\nx"` vs `"x"` scores 100, the swap scores 50. -/
theorem textSimilarity_asymmetric_counterexample :
    textSimilarity "x\nx" "x" = 100 ∧ textSimilarity "x" "x\nx" = 50 := by
  constructor <;> decide

theorem filter_mem_length_comm {A B : List String} (hA : A.Nodup) (hB : B.Nodup) :
    (A.filter (fun l => decide (l ∈ B))).length
      = (B.filter (fun l => decide (l ∈ A))).length := by
  have e1 : (A.filter (fun l => decide (l ∈ B))).toFinset = A.toFinset ∩ B.toFinset := by
    ext x; simp
  have e2 : (B.filter (fun l => decide (l ∈ A))).toFinset = B.toFinset ∩ A.toFinset := by
    ext x; simp
  have c1 := List.toFinset_card_of_nodup (hA.filter (fun l => decide (l ∈ B)))
  have c2 := List.toFinset_card_of_nodup (hB.filter (fun l => decide (l ∈ A)))
  rw [← c1, ← c2, e1, e2, Finset.inter_comm]

/-- C9, amended: the similarity score is exactly symmetric whenever
neither text repeats a non-blank line (the situation the spec's rounding
proviso envisages); with repeated lines it is not, as the counterexample
shows. -/
theorem textSimilarity_symm_of_nodup (a b : String)
    (ha : (nonBlankLines a).Nodup) (hb : (nonBlankLines b).Nodup) :
    textSimilarity a b = textSimilarity b a := by
  by_cases ha0 : a = ""
  · by_cases hb0 : b = "" <;> simp [textSimilarity, ha0, hb0]
  · by_cases hb0 : b = ""
    · simp [textSimilarity, ha0, hb0]
    · by_cases hA0 : (nonBlankLines a).isEmpty
      · by_cases hB0 : (nonBlankLines b).isEmpty <;>
          simp [textSimilarity, ha0, hb0, hA0, hB0]
      · by_cases hB0 : (nonBlankLines b).isEmpty
        · simp [textSimilarity, ha0, hb0, hA0, hB0]
        · simp [textSimilarity, ha0, hb0, hA0, hB0,
            filter_mem_length_comm ha hb, Nat.max_comm]

/-- C9, witness for `textSimilarity_symm_of_nodup` on two duplicate-free
texts. -/
theorem textSimilarity_symm_of_nodup_witness :
    textSimilarity "a\nb\nc" "b\nc\nd" = textSimilarity "b\nc\nd" "a\nb\nc" :=
  textSimilarity_symm_of_nodup "a\nb\nc" "b\nc\nd" (by decide) (by decide)

-- ── C3 ──

/-- C3, counterexample: two equal-length texts with exactly 85% line
overlap (17 of max 20 lines) are not flagged as a loop — the code's
threshold is strict (`similarity > 85`), while the claim requires
`isLoop = true` at 85%. -/
theorem detectLoop_at_85_counterexample :
    ((nonBlankLines exPrev).filter (fun l => decide (l ∈ nonBlankLines exCurr))).length = 17
      ∧ max (nonBlankLines exPrev).length (nonBlankLines exCurr).length = 20
      ∧ exPrev.length = exCurr.length
      ∧ detectLoop (some exPrev) (some exCurr) 2 85 = ⟨false, 85⟩ := by
  refine ⟨by decide, by decide, by decide, by decide⟩

/-- C3, amended: loop detection skips (reporting not-a-loop) when fewer
than 2 sessions have run, or when the two texts differ in length by more
than 20% of the older text's length; otherwise the verdict is
`isLoop = true` exactly when the rounded overlap percentage strictly
exceeds the 85 threshold — so exactly 85% yields `false`. -/
theorem detectLoop_thresholds (prev curr : String) (n : Nat) :
    (n < 2 → detectLoop (some prev) (some curr) n 85 = ⟨false, 0⟩)
    ∧ (2 ≤ n →
        5 * (max prev.length curr.length - min prev.length curr.length) > prev.length →
        detectLoop (some prev) (some curr) n 85 = ⟨false, 0⟩)
    ∧ (2 ≤ n →
        5 * (max prev.length curr.length - min prev.length curr.length) ≤ prev.length →
        ((detectLoop (some prev) (some curr) n 85).isLoop = true ↔
          85 < textSimilarity prev curr)) := by
  refine ⟨fun h => by simp [detectLoop, h], fun h2 hsz => ?_, fun h2 hsz => ?_⟩
  · simp [detectLoop, Nat.not_lt.mpr h2, hsz]
  · simp [detectLoop, Nat.not_lt.mpr h2, Nat.not_lt.mpr hsz]

/-- C3, witness for `detectLoop_thresholds` at the 85%-overlap example:
session 1 is skipped, and at session 2 the verdict comes from the strict
comparison with 85. -/
theorem detectLoop_thresholds_witness :
    detectLoop (some exPrev) (some exCurr) 1 85 = ⟨false, 0⟩
      ∧ ((detectLoop (some exPrev) (some exCurr) 2 85).isLoop = true ↔
          85 < textSimilarity exPrev exCurr) :=
  ⟨(detectLoop_thresholds exPrev exCurr 1).1 (by decide),
   (detectLoop_thresholds exPrev exCurr 2).2.2 (by decide) (by decide)⟩

-- ── Helper lemmas for knowledge compaction ──

theorem splitNl_ne_nil (s : List Char) : splitNl s ≠ [] := by
  induction s with
  | nil => simp [splitNl]
  | cons c cs ih =>
    simp only [splitNl]
    cases h : splitNl cs with
    | nil => simp
    | cons l ls => by_cases hc : c = '\n' <;> simp [hc]

theorem splitNl_no_nl : ∀ {p : List Char}, '\n' ∉ p → splitNl p = [p] := by
  intro p
  induction p with
  | nil => intro _; rfl
  | cons c cs ih =>
    intro h
    have hc : ¬(c = '\n') := fun hcc => h (hcc ▸ List.mem_cons_self c cs)
    have hcs : '\n' ∉ cs := fun hm => h (List.mem_cons_of_mem c hm)
    simp only [splitNl, ih hcs]
    simp [hc]

theorem splitNl_append_nl {p : List Char} (hp : '\n' ∉ p) (t : List Char) :
    splitNl (p ++ '\n' :: t) = p :: splitNl t := by
  induction p with
  | nil =>
    simp only [List.nil_append, splitNl]
    cases h : splitNl t with
    | nil => exact absurd h (splitNl_ne_nil t)
    | cons l ls => simp
  | cons c cs ih =>
    have hc : ¬(c = '\n') := fun hcc => hp (hcc ▸ List.mem_cons_self c cs)
    have hcs : '\n' ∉ cs := fun hm => hp (List.mem_cons_of_mem c hm)
    simp only [List.cons_append, splitNl, List.append_eq]
    rw [ih hcs]
    simp [hc]

theorem splitNl_joinNl : ∀ L : List (List Char), L ≠ [] → (∀ p ∈ L, '\n' ∉ p) →
    splitNl (joinNl L) = L := by
  intro L
  induction L with
  | nil => intro h _; exact absurd rfl h
  | cons l ls ih =>
    intro _ h
    cases ls with
    | nil => exact splitNl_no_nl (h l (by simp))
    | cons l2 ls2 =>
      have h1 : '\n' ∉ l := h l (by simp)
      show splitNl (l ++ '\n' :: joinNl (l2 :: ls2)) = l :: l2 :: ls2
      rw [splitNl_append_nl h1]
      rw [ih (by simp) (fun p hp => h p (List.mem_cons_of_mem l hp))]

theorem splitLines_joinLines (L : List String) (hne : L ≠ [])
    (h : ∀ l ∈ L, '\n' ∉ l.data) : splitLines (joinLines L) = L := by
  unfold splitLines joinLines
  rw [splitNl_joinNl (L.map String.data) (by simpa using hne)
    (by intro p hp; obtain ⟨l, hl, rfl⟩ := List.mem_map.mp hp; exact h l hl)]
  have hmk : (fun l : List Char => (⟨l⟩ : String)) ∘ String.data = id := by
    funext s; rfl
  rw [List.map_map, hmk, List.map_id]

theorem entryIdxs_append : ∀ (A B : List String),
    entryIdxs (A ++ B) = entryIdxs A ++ (entryIdxs B).map (· + A.length) := by
  intro A B
  induction A with
  | nil => simp [entryIdxs]
  | cons a A ih =>
    by_cases ha : isSessionEntryLine a <;>
      simp [entryIdxs, ha, ih, Function.comp_def, Nat.add_assoc]

theorem entryIdxs_nil_of_none : ∀ {L : List String},
    (∀ l ∈ L, isSessionEntryLine l = false) → entryIdxs L = [] := by
  intro L
  induction L with
  | nil => intro _; rfl
  | cons l ls ih =>
    intro h
    have h1 : isSessionEntryLine l = false := h l (by simp)
    simp [entryIdxs, h1, ih (fun x hx => h x (List.mem_cons_of_mem l hx))]

theorem entryIdxs_flatten : ∀ {blocks : List (List String)},
    (∀ b ∈ blocks, WFBlock b) → entryIdxs blocks.flatten = blockOffsets blocks := by
  intro blocks
  induction blocks with
  | nil => intro _; rfl
  | cons b bs ih =>
    intro h
    obtain ⟨hd, tl, rfl, hhd, htl⟩ := h b (by simp)
    rw [List.flatten_cons, entryIdxs_append,
      ih (fun x hx => h x (List.mem_cons_of_mem _ hx))]
    have he : entryIdxs (hd :: tl) = [0] := by
      simp [entryIdxs, hhd, entryIdxs_nil_of_none htl]
    rw [he]
    simp [blockOffsets]

theorem countEntries_flatten : ∀ {blocks : List (List String)},
    (∀ b ∈ blocks, WFBlock b) → countEntries blocks.flatten = blocks.length := by
  intro blocks
  induction blocks with
  | nil => intro _; rfl
  | cons b bs ih =>
    intro h
    obtain ⟨hd, tl, rfl, hhd, htl⟩ := h b (by simp)
    have hb : countEntries (hd :: tl) = 1 := by
      simp only [countEntries, List.filter_cons, hhd]
      have : List.filter isSessionEntryLine tl = [] := by
        rw [List.filter_eq_nil_iff]
        intro a ha
        simp [htl a ha]
      simp [this]
    simp only [List.flatten_cons, countEntries, List.filter_append, List.length_append]
    have := ih (fun x hx => h x (List.mem_cons_of_mem _ hx))
    simp only [countEntries] at hb this
    rw [hb, this]
    simp only [List.length_cons]
    omega

theorem countEntries_append (A B : List String) :
    countEntries (A ++ B) = countEntries A + countEntries B := by
  simp [countEntries, List.filter_append]

theorem countEntries_none {L : List String}
    (h : ∀ l ∈ L, isSessionEntryLine l = false) : countEntries L = 0 := by
  simp only [countEntries, List.length_eq_zero, List.filter_eq_nil_iff]
  intro a ha
  simp [h a ha]

theorem blockOffsets_length (blocks : List (List String)) :
    (blockOffsets blocks).length = blocks.length := by
  induction blocks <;> simp [blockOffsets, *]

theorem blockOffsets_drop : ∀ (j : Nat) (blocks : List (List String)),
    (blockOffsets blocks).drop j
      = (blockOffsets (blocks.drop j)).map (· + (blocks.take j).flatten.length) := by
  intro j
  induction j with
  | zero => intro blocks; simp
  | succ j ih =>
    intro blocks
    cases blocks with
    | nil => simp [blockOffsets]
    | cons b bs =>
      simp only [blockOffsets, List.drop_succ_cons, List.take_succ_cons,
        List.flatten_cons, List.length_append]
      rw [← List.map_drop, ih bs, List.map_map]
      apply List.map_congr_left
      intro x _
      simp [Function.comp_def]
      omega

theorem flatten_drop_offset (j : Nat) (blocks : List (List String)) :
    blocks.flatten.drop (blocks.take j).flatten.length = (blocks.drop j).flatten := by
  calc blocks.flatten.drop (blocks.take j).flatten.length
      = ((blocks.take j ++ blocks.drop j).flatten).drop (blocks.take j).flatten.length := by
        rw [List.take_append_drop]
    _ = (blocks.drop j).flatten := by
        rw [List.flatten_append]
        exact List.drop_left' rfl

theorem findIdx?_first {p : String → Bool} :
    ∀ (A : List String) (x : String) (B : List String) (i : Nat),
      (∀ a ∈ A, p a = false) → p x = true →
      List.findIdx? p (A ++ x :: B) i = some (i + A.length) := by
  intro A
  induction A with
  | nil =>
    intro x B i _ hx
    simp [List.findIdx?_cons, hx]
  | cons a A ih =>
    intro x B i h hx
    have ha : p a = false := h a (by simp)
    simp only [List.cons_append, List.findIdx?_cons, ha, Bool.false_eq_true, if_false]
    rw [ih x B (i + 1) (fun y hy => h y (List.mem_cons_of_mem a hy)) hx]
    simp
    omega

theorem findIdx?_none {p : String → Bool} :
    ∀ (L : List String) (i : Nat), (∀ a ∈ L, p a = false) →
      List.findIdx? p L i = none := by
  intro L
  induction L with
  | nil => intro i _; rfl
  | cons a A ih =>
    intro i h
    have ha : p a = false := h a (by simp)
    simp only [List.findIdx?_cons, ha, Bool.false_eq_true, if_false]
    exact ih (i + 1) (fun y hy => h y (List.mem_cons_of_mem a hy))

-- ── C4 ──

/-- C4: for a well-formed knowledge base — a core section (no entry
headings, no Session Log header), the `## Session Log` header, one
non-entry line after it, then optional non-entry lines and `N`
rolling-log entry blocks — with `N > K ≥ 1` (the configuration layer
rejects `keepSessions < 1`), compaction prunes to exactly the last `K`
entries, leaves the core prefix (everything up to and including the
header and the following line) untouched, and is idempotent: compacting
the compacted file returns it unchanged with `pruned = false`.  When no
`## Session Log` header can be found, compaction is a no-op that leaves
the file unchanged. -/
theorem compactKnowledge_spec (core : List String) (gap : String)
    (pre : List String) (blocks : List (List String)) (K : Nat)
    (hK1 : 1 ≤ K) (hKN : K < blocks.length)
    (hcore : ∀ l ∈ core, isSessionEntryLine l = false ∧ isLogHeaderLine l = false)
    (hgap : isSessionEntryLine gap = false)
    (hpre : ∀ l ∈ pre, isSessionEntryLine l = false)
    (hblocks : ∀ b ∈ blocks, WFBlock b)
    (hnl : ∀ l ∈ core ++ "## Session Log" :: gap :: (pre ++ blocks.flatten),
      '\n' ∉ l.data) :
    (compactKnowledge
        (some (joinLines (core ++ "## Session Log" :: gap :: (pre ++ blocks.flatten)))) K
      = (⟨true, (core ++ "## Session Log" :: gap :: (pre ++ blocks.flatten)).length,
          (core ++ "## Session Log" :: gap
            :: (blocks.drop (blocks.length - K)).flatten).length⟩,
         some (joinLines (core ++ "## Session Log" :: gap
            :: (blocks.drop (blocks.length - K)).flatten))))
    ∧ countEntries (core ++ "## Session Log" :: gap
        :: (blocks.drop (blocks.length - K)).flatten) = K
    ∧ (compactKnowledge
        (some (joinLines (core ++ "## Session Log" :: gap
          :: (blocks.drop (blocks.length - K)).flatten))) K
      = (⟨false,
          (core ++ "## Session Log" :: gap
            :: (blocks.drop (blocks.length - K)).flatten).length,
          (core ++ "## Session Log" :: gap
            :: (blocks.drop (blocks.length - K)).flatten).length⟩,
         some (joinLines (core ++ "## Session Log" :: gap
            :: (blocks.drop (blocks.length - K)).flatten))))
    ∧ (∀ (content : String) (K2 : Nat),
        (∀ l ∈ splitLines content, isLogHeaderLine l = false) →
        (compactKnowledge (some content) K2).2 = some content) := by
  have hcoreE : ∀ l ∈ core, isSessionEntryLine l = false := fun l hl => (hcore l hl).1
  have hcoreH : ∀ l ∈ core, isLogHeaderLine l = false := fun l hl => (hcore l hl).2
  have hdrNotE : isSessionEntryLine "## Session Log" = false := by decide
  have hdrIsH : isLogHeaderLine "## Session Log" = true := by decide
  set N := blocks.length with hN
  set kept := blocks.drop (N - K) with hkept
  have hkeptWF : ∀ b ∈ kept, WFBlock b := fun b hb =>
    hblocks b (List.mem_of_mem_drop hb)
  have hkeptLen : kept.length = K := by
    rw [hkept, List.length_drop]
    omega
  set L0 : List String := core ++ "## Session Log" :: gap :: (pre ++ blocks.flatten)
    with hL0
  set L1 : List String := core ++ "## Session Log" :: gap :: kept.flatten with hL1
  have hhg : countEntries ["## Session Log", gap] = 0 := by
    simp [countEntries, List.filter_cons, hdrNotE, hgap]
  have hcount0 : countEntries L0 = N := by
    rw [hL0]
    rw [show ("## Session Log" :: gap :: (pre ++ blocks.flatten)
        = ["## Session Log", gap] ++ (pre ++ blocks.flatten)) from rfl]
    rw [countEntries_append, countEntries_append, countEntries_append,
      countEntries_none hcoreE, hhg, countEntries_none hpre,
      countEntries_flatten hblocks]
    omega
  have hcount1 : countEntries L1 = K := by
    rw [hL1]
    rw [show ("## Session Log" :: gap :: kept.flatten
        = ["## Session Log", gap] ++ kept.flatten) from rfl]
    rw [countEntries_append, countEntries_append,
      countEntries_none hcoreE, hhg, countEntries_flatten hkeptWF, hkeptLen]
    omega
  have hnl1 : ∀ l ∈ L1, '\n' ∉ l.data := by
    intro l hl
    apply hnl l
    rw [hL1] at hl
    rw [hL0]
    simp only [List.mem_append, List.mem_cons] at hl ⊢
    rcases hl with h | h | h | h
    · exact Or.inl h
    · exact Or.inr (Or.inl h)
    · exact Or.inr (Or.inr (Or.inl h))
    · refine Or.inr (Or.inr (Or.inr (Or.inr ?_)))
      rw [List.mem_flatten] at h ⊢
      obtain ⟨b, hb, hlb⟩ := h
      exact ⟨b, List.mem_of_mem_drop hb, hlb⟩
  have hsplit0 : splitLines (joinLines L0) = L0 :=
    splitLines_joinLines L0 (by rw [hL0]; simp) hnl
  have hsplit1 : splitLines (joinLines L1) = L1 :=
    splitLines_joinLines L1 (by rw [hL1]; simp) hnl1
  have hfind0 : L0.findIdx? isLogHeaderLine = some core.length := by
    rw [hL0]
    have := findIdx?_first core "## Session Log" (gap :: (pre ++ blocks.flatten)) 0
      hcoreH hdrIsH
    simpa using this
  have hkeptne : kept ≠ [] := by
    rw [hkept]
    intro hemp
    have hld := List.length_drop (N - K) blocks
    rw [hemp] at hld
    simp only [List.length_nil] at hld
    omega
  have htake : L0.take (core.length + 2) = core ++ ["## Session Log", gap] := by
    rw [hL0, List.take_append_eq_append_take,
      List.take_of_length_le (by omega),
      show core.length + 2 - core.length = 2 from by omega]
    rfl
  have hdrop : L0.drop (core.length + 2) = pre ++ blocks.flatten := by
    rw [hL0, List.drop_append_eq_append_drop,
      List.drop_eq_nil_of_le (by omega),
      show core.length + 2 - core.length = 2 from by omega]
    rfl
  have hstarts : entryIdxs (pre ++ blocks.flatten)
      = (blockOffsets blocks).map (· + pre.length) := by
    rw [entryIdxs_append, entryIdxs_nil_of_none hpre, entryIdxs_flatten hblocks]
    simp
  have hstartsLen : ((blockOffsets blocks).map (· + pre.length)).length = N := by
    rw [List.length_map, blockOffsets_length]
  -- the index the pruning cuts at
  set tlen := (blocks.take (N - K)).flatten.length with htlen
  have hoff : (blockOffsets blocks).drop (N - K)
      = (blockOffsets kept).map (· + tlen) := blockOffsets_drop (N - K) blocks
  obtain ⟨b0, kept', hkept'⟩ : ∃ b0 kept', kept = b0 :: kept' := by
    cases hk : kept with
    | nil => exact absurd hk hkeptne
    | cons b0 kept' => exact ⟨b0, kept', rfl⟩
  have hkeep : (((blockOffsets blocks).map (· + pre.length)).drop
        (((blockOffsets blocks).map (· + pre.length)).length - K))
      = (0 + tlen + pre.length) :: ((blockOffsets kept').map (· + b0.length + tlen + pre.length)) := by
    rw [hstartsLen, ← List.map_drop, hoff, hkept']
    simp only [blockOffsets, List.map_cons, List.map_map]
    rw [List.cons_eq_cons]
    refine ⟨rfl, ?_⟩
    apply List.map_congr_left
    intro x _
    simp [Function.comp_def]
  have hcut : (pre ++ blocks.flatten).drop (0 + tlen + pre.length) = kept.flatten := by
    rw [show 0 + tlen + pre.length = pre.length + tlen from by omega]
    rw [List.drop_append_eq_append_drop,
      List.drop_eq_nil_of_le (by omega),
      show pre.length + tlen - pre.length = tlen from by omega]
    rw [List.nil_append, htlen, hkept]
    exact flatten_drop_offset (N - K) blocks
  have hHK : core ++ ["## Session Log", gap] ++ kept.flatten = L1 := by
    rw [hL1]
    simp
  refine ⟨?_, hcount1, ?_, ?_⟩
  · -- main compaction equation
    show compactKnowledge (some (joinLines L0)) K = _
    rw [compactKnowledge]
    simp only [hsplit0, hfind0]
    have hc0 : (List.filter isSessionEntryLine L0).length = N := hcount0
    rw [hc0, if_neg (by omega)]
    simp only [htake, hdrop, hstarts]
    rw [if_neg (by omega : ¬(K = 0))]
    simp only [hkeep, hcut, hHK, hsplit1]
  · -- idempotence
    show compactKnowledge (some (joinLines L1)) K = _
    rw [compactKnowledge]
    simp only [hsplit1]
    have hc1 : (List.filter isSessionEntryLine L1).length = K := hcount1
    rw [hc1, if_pos (Nat.le_refl K)]
  · -- missing header is a no-op
    intro content K2 hnohdr
    rw [compactKnowledge]
    by_cases hle : (List.filter isSessionEntryLine (splitLines content)).length ≤ K2
    · rw [if_pos hle]
    · rw [if_neg hle, findIdx?_none (splitLines content) 0 hnohdr]

/-- C4, witness for `compactKnowledge_spec` at a concrete knowledge base
with 3 entries and keep-count 2. -/
theorem compactKnowledge_spec_witness :
    (compactKnowledge (some (joinLines kbLines)) 2).2 = some (joinLines kbLines2)
    ∧ countEntries kbLines2 = 2
    ∧ (compactKnowledge (some (joinLines kbLines2)) 2).2 = some (joinLines kbLines2) := by
  have hWF : ∀ b ∈ [["### Session 1", "a"], ["### Session 2", "b"], ["### Session 3", "c"]],
      WFBlock b := by
    intro b hb
    simp only [List.mem_cons, List.not_mem_nil, or_false] at hb
    rcases hb with rfl | rfl | rfl
    · exact ⟨"### Session 1", ["a"], rfl, by decide, by decide⟩
    · exact ⟨"### Session 2", ["b"], rfl, by decide, by decide⟩
    · exact ⟨"### Session 3", ["c"], rfl, by decide, by decide⟩
  have h := compactKnowledge_spec ["## Core Knowledge", "fact", ""] "" []
    [["### Session 1", "a"], ["### Session 2", "b"], ["### Session 3", "c"]] 2
    (by decide) (by decide) (by decide) (by decide) (by decide) hWF (by decide)
  exact ⟨congrArg Prod.snd h.1, h.2.1, congrArg Prod.snd h.2.2.1⟩

-- ── C5 ──

/-- C5, counterexample: a caller whose own live process already holds
the lock gets `false` from `acquire()` although no *other* live process
holds it — PID 42 is the caller, the only live process, and the lock
file records 42, yet acquisition fails.  This refutes the claim's
"iff no other live process holds the lock" at this input. -/
theorem acquire_self_held_counterexample :
    ¬ ((¬ ∃ p, p ≠ 42 ∧ parsePid "42" = some p ∧ (fun q => decide (q = 42)) p = true)
        → (FileLock.acquire (fun q => decide (q = 42)) 42 (some "42")).1 = true) := by
  intro h
  have hval : (FileLock.acquire (fun q => decide (q = 42)) 42 (some "42")).1 = false := by
    decide
  have hno : ¬ ∃ p, p ≠ 42 ∧ parsePid "42" = some p ∧ (fun q => decide (q = 42)) p = true := by
    rintro ⟨p, hne, hp, -⟩
    have h42 : parsePid "42" = some 42 := by decide
    rw [h42] at hp
    exact hne (Option.some.inj hp).symm
  rw [h hno] at hval
  exact absurd hval (by decide)

/-- C5, amended: `acquire()` returns true iff no *live* process (the
caller included) holds the lock for the directory; a lock whose recorded
PID is dead is removed and acquisition succeeds; `release()` deletes the
lock file only when it still records the caller's PID; and after a
release of one's own lock, a subsequent `acquire()` succeeds. -/
theorem fileLock_contract (alive : Nat → Bool) (self : Nat) (lf : Option String) :
    ((FileLock.acquire alive self lf).1 = true ↔
      ∀ c p, lf = some c → parsePid c = some p → alive p = false)
    ∧ (∀ c p, parsePid c = some p → alive p = false →
        FileLock.acquire alive self (some c) = (true, some (toString self)))
    ∧ (∀ c, jsTrim c ≠ toString self →
        FileLock.release self true (some c) = some c)
    ∧ (∀ c, jsTrim c = toString self →
        FileLock.release self true (some c) = none)
    ∧ (∀ c, jsTrim c = toString self →
        (FileLock.acquire alive self (FileLock.release self true (some c))).1 = true) := by
  refine ⟨?_, ?_, ?_, ?_, ?_⟩
  · match lf with
    | none => simp [FileLock.acquire, FileLock.cleanStaleLock]
    | some c =>
      match hp : parsePid c with
      | none =>
        simp only [FileLock.acquire, FileLock.cleanStaleLock, hp]
        constructor
        · intro _ c1 p hc1 hp2
          obtain rfl : c = c1 := Option.some.inj hc1
          rw [hp] at hp2
          exact absurd hp2 (by simp)
        · intro _
          trivial
      | some pid =>
        by_cases hl : alive pid = true
        · simp only [FileLock.acquire, FileLock.cleanStaleLock, hp, hl, if_true]
          simp only [Option.some.injEq]
          constructor
          · intro hfalse
            exact absurd hfalse (by simp)
          · intro hall
            have := hall c pid rfl hp
            rw [hl] at this
            exact absurd this (by simp)
        · have hl2 : alive pid = false := by
            cases h2 : alive pid
            · rfl
            · exact absurd h2 hl
          simp only [FileLock.acquire, FileLock.cleanStaleLock, hp, hl2]
          simp only [Bool.false_eq_true, if_false, true_iff]
          intro c2 p2 hc2 hp2
          cases hc2
          rw [hp] at hp2
          cases hp2
          exact hl2
  · intro c p hp hdead
    simp [FileLock.acquire, FileLock.cleanStaleLock, hp, hdead]
  · intro c hne
    simp [FileLock.release, hne]
  · intro c heq
    simp [FileLock.release, heq]
  · intro c heq
    simp [FileLock.release, heq, FileLock.acquire, FileLock.cleanStaleLock]

/-- C5, witness for `fileLock_contract`: PID 42 is the only live
process; a lock recorded by the dead PID 17 is acquirable, release
guards on PID identity, and release-then-acquire succeeds. -/
theorem fileLock_contract_witness :
    FileLock.acquire (fun q => decide (q = 42)) 42 (some "17") = (true, some "42")
    ∧ FileLock.release 42 true (some "43") = some "43"
    ∧ FileLock.release 42 true (some "42") = none
    ∧ (FileLock.acquire (fun q => decide (q = 42)) 42
        (FileLock.release 42 true (some "42"))).1 = true :=
  ⟨(fileLock_contract (fun q => decide (q = 42)) 42 (some "17")).2.1 "17" 17
      (by decide) (by decide),
   (fileLock_contract (fun q => decide (q = 42)) 42 (some "43")).2.2.1 "43" (by decide),
   (fileLock_contract (fun q => decide (q = 42)) 42 (some "42")).2.2.2.1 "42" (by decide),
   (fileLock_contract (fun q => decide (q = 42)) 42 (some "42")).2.2.2.2 "42" (by decide)⟩

-- ── Helper lemmas for substring extraction ──

theorem strData_append (a b : String) : (a ++ b).data = a.data ++ b.data := rfl

theorem infix_skip {α : Type} (A : List α) {L M : List α} (h : L <:+: M) :
    L <:+: A ++ M := by
  obtain ⟨s, t, rfl⟩ := h
  exact ⟨A ++ s, t, by simp⟩

theorem infix_head {α : Type} (L R : List α) : L <:+: L ++ R :=
  (List.prefix_append L R).isInfix

theorem str_ne_empty_of_infix {needle s : String}
    (h : needle.data <:+: s.data) (hn : needle ≠ "") : s ≠ "" := by
  intro hs
  subst hs
  rw [List.infix_nil] at h
  exact hn (String.ext h)

-- ── C6 ──

/-- C6: whenever a print-mode session records tool activity, is not
classified rate-limited, and leaves no valid handoff bundle, the rescue
handoff is written; the synthesized progress record is non-empty, marked
`STATUS: IN_PROGRESS`, and references the session ordinal, the tool-call
count and the last tool used; the synthesized next-task record is
non-empty, references the session ordinal, and instructs the next
session to inspect the git history and the knowledge base. -/
theorem rescue_handoff_spec (t : Nat) (hc : HandoffCheck) (e : Int)
    (n toolUses thr : Nat) (lastTool existing initial : String)
    (ht : 0 < t) (hcomp : hc.complete = false) (hhand : hc.handedOff = false) :
    (printSessionFinalize false t hc e).2 = true
    ∧ rescueProgress n e toolUses lastTool existing ≠ ""
    ∧ "STATUS: IN_PROGRESS".data <:+: (rescueProgress n e toolUses lastTool existing).data
    ∧ (toString n).data <:+: (rescueProgress n e toolUses lastTool existing).data
    ∧ (toString toolUses).data <:+: (rescueProgress n e toolUses lastTool existing).data
    ∧ lastTool.data <:+: (rescueProgress n e toolUses lastTool existing).data
    ∧ rescueNextPrompt n initial thr ≠ ""
    ∧ (toString n).data <:+: (rescueNextPrompt n initial thr).data
    ∧ "git log".data <:+: (rescueNextPrompt n initial thr).data
    ∧ "KNOWLEDGE.md".data <:+: (rescueNextPrompt n initial thr).data := by
  have hstatus :
      "STATUS: IN_PROGRESS".data <:+: (rescueProgress n e toolUses lastTool existing).data := by
    simp only [rescueProgress, strData_append, List.append_assoc]
    exact infix_skip _ (infix_head _ _)
  have hgit : "git log".data <:+: (rescueNextPrompt n initial thr).data := by
    simp only [rescueNextPrompt, strData_append, List.append_assoc]
    exact infix_skip _ (infix_skip _ (infix_skip _ (infix_skip _ (infix_skip _
      (infix_head _ _)))))
  refine ⟨?_, ?_, hstatus, ?_, ?_, ?_, ?_, ?_, hgit, ?_⟩
  · simp [printSessionFinalize, ht, hcomp, hhand]
  · exact str_ne_empty_of_infix hstatus (by decide)
  · simp only [rescueProgress, strData_append, List.append_assoc]
    exact infix_skip _ (infix_skip _ (infix_skip _ (infix_head _ _)))
  · simp only [rescueProgress, strData_append, List.append_assoc]
    exact infix_skip _ (infix_skip _ (infix_skip _ (infix_skip _ (infix_skip _
      (infix_skip _ (infix_skip _ (infix_head _ _)))))))
  · simp only [rescueProgress, strData_append, List.append_assoc]
    exact infix_skip _ (infix_skip _ (infix_skip _ (infix_skip _ (infix_skip _
      (infix_skip _ (infix_skip _ (infix_skip _ (infix_skip _ (infix_head _ _)))))))))
  · exact str_ne_empty_of_infix hgit (by decide)
  · simp only [rescueNextPrompt, strData_append, List.append_assoc]
    exact infix_skip _ (infix_head _ _)
  · simp only [rescueNextPrompt, strData_append, List.append_assoc]
    exact infix_skip _ (infix_skip _ (infix_skip _ (infix_skip _ (infix_skip _
      (infix_skip _ (infix_skip _ (infix_skip _ (infix_skip _ (infix_head _ _)))))))))

/-- C6, witness for `rescue_handoff_spec` at a concrete crashed
session. -/
theorem rescue_handoff_spec_witness :
    (printSessionFinalize false 7 ⟨false, false⟩ 1).2 = true
    ∧ rescueProgress 3 1 7 "Bash" "" ≠ ""
    ∧ "STATUS: IN_PROGRESS".data <:+: (rescueProgress 3 1 7 "Bash" "").data
    ∧ (toString 3).data <:+: (rescueProgress 3 1 7 "Bash" "").data
    ∧ (toString 7).data <:+: (rescueProgress 3 1 7 "Bash" "").data
    ∧ "Bash".data <:+: (rescueProgress 3 1 7 "Bash" "").data
    ∧ rescueNextPrompt 3 "task" 60 ≠ ""
    ∧ (toString 3).data <:+: (rescueNextPrompt 3 "task" 60).data
    ∧ "git log".data <:+: (rescueNextPrompt 3 "task" 60).data
    ∧ "KNOWLEDGE.md".data <:+: (rescueNextPrompt 3 "task" 60).data :=
  rescue_handoff_spec 7 ⟨false, false⟩ 1 3 7 60 "Bash" "" "task"
    (by decide) (by decide) (by decide)

-- ── C7 ──

/-- C7: a rate-limited session attempt never ends the relay core loop —
the step continues with the session ordinal decremented back (the
attempt is retried, not counted) and the crash counter reset — and the
sleep duration is the reported reset wait (default backoff `300_000` ms
when no reset time is known), always capped at
`rateLimitMaxWait * 1000`. -/
theorem rateLimit_never_fatal (startSession : Nat) (obs : IterObs) (s : RelayState)
    (e : Int)
    (hcb : obs.completeBefore = false)
    (hloop : ¬(obs.loopDetected = true ∧ 3 ≤ s.consecutiveLoops + 1))
    (hp : obs.promptOk = true)
    (hsess : obs.session = .finished e true) :
    relayStep startSession obs s
      = .next ⟨s.sessionCount,
          if obs.loopDetected then s.consecutiveLoops + 1 else 0, 0⟩
    ∧ (∀ (now : Int) (resetAt : Option Int) (maxW : Nat),
        rateLimitWaitMs now resetAt maxW ≤ (maxW : Int) * 1000)
    ∧ (∀ (now : Int) (maxW : Nat),
        rateLimitWaitMs now none maxW = min 300000 ((maxW : Int) * 1000)) := by
  refine ⟨?_, fun now resetAt maxW => min_le_right _ _, fun now maxW => rfl⟩
  cases hl : obs.loopDetected
  · simp [relayStep, hcb, hsess, hp, hl]
  · have h3 : ¬(3 ≤ s.consecutiveLoops + 1) := fun h => hloop ⟨hl, h⟩
    simp [relayStep, hcb, hsess, hp, hl, h3]

/-- C7, witness for `rateLimit_never_fatal`: a rate-limited attempt at
session 6 is retried as session 6, and the wait caps hold at concrete
values. -/
theorem rateLimit_never_fatal_witness :
    relayStep 0 ⟨false, false, true, .finished 1 true, false, false⟩ ⟨5, 0, 2⟩
      = .next ⟨5, 0, 0⟩
    ∧ rateLimitWaitMs 0 (some 1000000000) 18000 ≤ (18000 : Int) * 1000
    ∧ rateLimitWaitMs 0 none 18000 = min 300000 ((18000 : Int) * 1000) := by
  have h := rateLimit_never_fatal 0 ⟨false, false, true, .finished 1 true, false, false⟩
    ⟨5, 0, 2⟩ 1 rfl (by simp) rfl rfl
  exact ⟨h.1, h.2.1 0 (some 1000000000) 18000, h.2.2 0 18000⟩

-- ── C1 ──

theorem runRelayAux_step_next (fuel : Nat) {start maxS : Nat} {env : Nat → IterObs}
    {i : Nat} {s s1 : RelayState}
    (hlt : s.sessionCount < maxS) (hstep : relayStep start (env i) s = .next s1) :
    runRelayAux start maxS env (fuel + 1) i s
      = runRelayAux start maxS env fuel (i + 1) s1 := by
  simp [runRelayAux, hlt, hstep]

theorem runRelayAux_step_done (fuel : Nat) {start maxS : Nat} {env : Nat → IterObs}
    {i : Nat} {s : RelayState} {r : RelayCoreResult}
    (hlt : s.sessionCount < maxS) (hstep : relayStep start (env i) s = .done r) :
    runRelayAux start maxS env (fuel + 1) i s = some r := by
  simp [runRelayAux, hlt, hstep]

theorem runRelayAux_benign (maxS : Nat) (env : Nat → IterObs)
    (henv : ∀ i, env i = ⟨false, false, true, .finished 0 false, false, false⟩) :
    ∀ fuel i c, c ≤ maxS → maxS - c < fuel →
      runRelayAux 0 maxS env fuel i ⟨c, 0, 0⟩ = some ⟨false, true, maxS, maxS⟩ := by
  intro fuel
  induction fuel with
  | zero => intro i c hc hf; omega
  | succ f ih =>
    intro i c hc hf
    by_cases hlt : c < maxS
    · have hstep : relayStep 0 (env i) ⟨c, 0, 0⟩ = .next ⟨c + 1, 0, 0⟩ := by
        rw [henv i]; simp [relayStep]
      rw [runRelayAux_step_next f hlt hstep]
      exact ih (i + 1) (c + 1) (by omega) (by omega)
    · have hceq : c = maxS := by omega
      subst hceq
      simp [runRelayAux, hlt]

/-- C1: when no other exit condition can fire — the completion marker is
never seen, loop detection never flags, prompts build, sessions exit 0
and are not rate-limited, and no verification passes — the relay core
runs until the configured maximum session count and returns the
max-sessions result; and with sessions that crash (exit 1) every time,
it returns after exactly 3 consecutive crash-classified attempts with a
crash result (`completed = false`, `maxSessionsReached = false`).  In
particular, `maxSessions = 3` with a never-written marker and no
verification runs all 3 sessions and reports max-sessions-reached, not a
crash. -/
theorem relay_exit_characterization (maxS fuel : Nat) (env : Nat → IterObs) :
    ((∀ i, env i = ⟨false, false, true, .finished 0 false, false, false⟩) →
      maxS < fuel →
      runRelayCore 0 maxS fuel env = some ⟨false, true, maxS, maxS⟩)
    ∧ ((∀ i, env i = ⟨false, false, true, .finished 1 false, false, false⟩) →
      3 ≤ maxS → 3 < fuel →
      runRelayCore 0 maxS fuel env = some ⟨false, false, 3, 3⟩) := by
  constructor
  · intro henv hf
    exact runRelayAux_benign maxS env henv fuel 0 0 (by omega) (by omega)
  · intro henv h3 hf
    obtain ⟨f, rfl⟩ : ∃ f, fuel = f + 4 := ⟨fuel - 4, by omega⟩
    have h0 : (0 : Nat) < maxS := by omega
    have h1 : (1 : Nat) < maxS := by omega
    have h2 : (2 : Nat) < maxS := by omega
    have s0 : relayStep 0 (env 0) ⟨0, 0, 0⟩ = .next ⟨1, 0, 1⟩ := by
      rw [henv 0]; simp [relayStep]
    have s1 : relayStep 0 (env 1) ⟨1, 0, 1⟩ = .next ⟨2, 0, 2⟩ := by
      rw [henv 1]; simp [relayStep]
    have s2 : relayStep 0 (env 2) ⟨2, 0, 2⟩ = .done ⟨false, false, 3, 3⟩ := by
      rw [henv 2]; simp [relayStep]
    calc runRelayCore 0 maxS (f + 4) env
        = runRelayAux 0 maxS env (f + 3) 1 ⟨1, 0, 1⟩ := runRelayAux_step_next (f + 3) h0 s0
      _ = runRelayAux 0 maxS env (f + 2) 2 ⟨2, 0, 2⟩ := runRelayAux_step_next (f + 2) h1 s1
      _ = some ⟨false, false, 3, 3⟩ := runRelayAux_step_done (f + 1) h2 s2

/-- C1, witness for `relay_exit_characterization`: a relay with
`maxSessions = 3`, a marker never written and no verification command
exhausts all 3 sessions with a max-sessions result; an always-crashing
relay stops after 3 attempts with a crash result. -/
theorem relay_exit_characterization_witness :
    runRelayCore 0 3 4 (fun _ => ⟨false, false, true, .finished 0 false, false, false⟩)
      = some ⟨false, true, 3, 3⟩
    ∧ runRelayCore 0 5 20 (fun _ => ⟨false, false, true, .finished 1 false, false, false⟩)
      = some ⟨false, false, 3, 3⟩ :=
  ⟨(relay_exit_characterization 3 4 _).1 (fun _ => rfl) (by decide),
   (relay_exit_characterization 5 20 _).2 (fun _ => rfl) (by decide) (by decide)⟩

-- ── C10 ──

/-- C10: after the rescue handoff is synthesized in print mode, the
session's reported exit code is forced to 0, so the relay core treats
the attempt as successful and resets the consecutive-crash counter
instead of counting it toward the three-consecutive-crashes stop. -/
theorem rescue_resets_crash_counter (t : Nat) (hc : HandoffCheck) (e : Int)
    (startSession : Nat) (obs : IterObs) (s : RelayState)
    (ht : 0 < t) (hcomp : hc.complete = false) (hhand : hc.handedOff = false)
    (hcb : obs.completeBefore = false)
    (hloop : ¬(obs.loopDetected = true ∧ 3 ≤ s.consecutiveLoops + 1))
    (hp : obs.promptOk = true)
    (hsess : obs.session = .finished (printSessionFinalize false t hc e).1 false)
    (hver : obs.verifyPassed = false) (hca : obs.completeAfter = false) :
    (printSessionFinalize false t hc e).1 = 0
    ∧ (printSessionFinalize false t hc e).2 = true
    ∧ relayStep startSession obs s
        = .next ⟨s.sessionCount + 1,
            if obs.loopDetected then s.consecutiveLoops + 1 else 0, 0⟩ := by
  have hfin : printSessionFinalize false t hc e = (0, true) := by
    simp [printSessionFinalize, ht, hcomp, hhand]
  refine ⟨by rw [hfin], by rw [hfin], ?_⟩
  rw [hfin] at hsess
  cases hl : obs.loopDetected
  · simp [relayStep, hcb, hsess, hp, hl, hver, hca]
  · have h3 : ¬(3 ≤ s.consecutiveLoops + 1) := fun h => hloop ⟨hl, h⟩
    simp [relayStep, hcb, hsess, hp, hl, h3, hver, hca]

/-- C10, witness for `rescue_resets_crash_counter`: a session that
crashed with exit code 1 but made 7 tool calls is reported as exit 0 and
the crash counter is reset from 2 to 0. -/
theorem rescue_resets_crash_counter_witness :
    (printSessionFinalize false 7 ⟨false, false⟩ 1).1 = 0
    ∧ (printSessionFinalize false 7 ⟨false, false⟩ 1).2 = true
    ∧ relayStep 0
        ⟨false, false, true, .finished (printSessionFinalize false 7 ⟨false, false⟩ 1).1 false,
          false, false⟩ ⟨4, 0, 2⟩
        = .next ⟨5, 0, 0⟩ :=
  rescue_resets_crash_counter 7 ⟨false, false⟩ 1 0
    ⟨false, false, true, .finished (printSessionFinalize false 7 ⟨false, false⟩ 1).1 false,
      false, false⟩ ⟨4, 0, 2⟩
    (by decide) (by decide) (by decide) rfl (by simp) rfl rfl rfl rfl

-- ── Helper lemmas for DAG validation ──

theorem findStage_aux : ∀ (stages : List StageConfig) (acc : Option StageConfig)
    (n : String) (s : StageConfig),
    stages.foldl (fun acc t => if t.name = n then some t else acc) acc = some s →
    (s ∈ stages ∧ s.name = n) ∨ acc = some s := by
  intro stages
  induction stages with
  | nil => intro acc n s h; exact Or.inr h
  | cons t ts ih =>
    intro acc n s h
    simp only [List.foldl_cons] at h
    rcases ih _ n s h with ⟨hmem, hname⟩ | hacc
    · exact Or.inl ⟨List.mem_cons_of_mem _ hmem, hname⟩
    · by_cases ht : t.name = n
      · rw [if_pos ht] at hacc
        obtain rfl : t = s := Option.some.inj hacc
        exact Or.inl ⟨List.mem_cons_self _ _, ht⟩
      · rw [if_neg ht] at hacc
        exact Or.inr hacc

theorem findStage_mem {stages : List StageConfig} {n : String} {s : StageConfig}
    (h : findStage stages n = some s) : s ∈ stages ∧ s.name = n := by
  rcases findStage_aux stages none n s h with hgood | hbad
  · exact hgood
  · exact absurd hbad (by simp)

theorem name_mem_allNames {stages : List StageConfig} {s : StageConfig}
    (h : s ∈ stages) : s.name ∈ allNames stages := by
  rw [allNames, List.mem_flatMap]
  exact ⟨s, h, by simp⟩

theorem dep_mem_allNames {stages : List StageConfig} {s : StageConfig} {d : String}
    (h : s ∈ stages) (hd : d ∈ s.requiresList) : d ∈ allNames stages := by
  rw [allNames, List.mem_flatMap]
  exact ⟨s, h, by simp [hd]⟩

theorem nodup_subset_length {l l2 : List String} (hn : l.Nodup) (hs : l ⊆ l2) :
    l.length ≤ l2.length := by
  have h1 : l.toFinset.card = l.length := List.toFinset_card_of_nodup hn
  have h2 : l.toFinset ⊆ l2.toFinset := by
    intro x hx
    simp only [List.mem_toFinset] at hx ⊢
    exact hs hx
  calc l.length = l.toFinset.card := h1.symm
    _ ≤ l2.toFinset.card := Finset.card_le_card h2
    _ ≤ l2.length := List.toFinset_card_le l2

theorem idxOf_lt_length : ∀ {L : List String} {a : String}, a ∈ L →
    idxOf L a < L.length := by
  intro L
  induction L with
  | nil => intro a h; simp at h
  | cons x xs ih =>
    intro a h
    by_cases hx : x = a
    · simp [idxOf, hx]
    · have : a ∈ xs := by
        rcases List.mem_cons.mp h with rfl | hm
        · exact absurd rfl hx
        · exact hm
      simp only [idxOf, if_neg hx, List.length_cons]
      exact Nat.succ_lt_succ (ih this)

theorem idxOf_append_left : ∀ {L1 : List String} (L2 : List String) {a : String},
    a ∈ L1 → idxOf (L1 ++ L2) a = idxOf L1 a := by
  intro L1
  induction L1 with
  | nil => intro L2 a h; simp at h
  | cons x xs ih =>
    intro L2 a h
    by_cases hx : x = a
    · simp [idxOf, hx]
    · have : a ∈ xs := by
        rcases List.mem_cons.mp h with rfl | hm
        · exact absurd rfl hx
        · exact hm
      simp only [List.cons_append, idxOf, List.append_eq, if_neg hx, ih L2 this]

theorem idxOf_append_right : ∀ {L1 : List String} (L2 : List String) {a : String},
    a ∉ L1 → idxOf (L1 ++ L2) a = L1.length + idxOf L2 a := by
  intro L1
  induction L1 with
  | nil => intro L2 a _; simp [idxOf]
  | cons x xs ih =>
    intro L2 a h
    have hx : ¬(x = a) := fun hxa => h (hxa ▸ List.mem_cons_self x xs)
    have hxs : a ∉ xs := fun hm => h (List.mem_cons_of_mem x hm)
    simp only [List.cons_append, idxOf, List.append_eq, if_neg hx, ih L2 hxs,
      List.length_cons]
    omega

theorem goodOrder_append_no_out {stages : List StageConfig} {L : List String}
    {name : String} (hGO : GoodOrder stages L)
    (hno : ∀ v, ¬Edge stages name v) (hnot : name ∉ L) :
    GoodOrder stages (L ++ [name]) := by
  intro u v he hu
  rcases List.mem_append.mp hu with huL | hun
  · obtain ⟨hv, hlt⟩ := hGO u v he huL
    refine ⟨List.mem_append.mpr (Or.inl hv), ?_⟩
    rw [idxOf_append_left _ hv, idxOf_append_left _ huL]
    exact hlt
  · rw [List.mem_singleton] at hun
    subst hun
    exact absurd he (hno v)

theorem goodOrder_append_deps_done {stages : List StageConfig} {L : List String}
    {name : String} {stage : StageConfig} (hGO : GoodOrder stages L)
    (hfind : findStage stages name = some stage)
    (hdeps : ∀ d ∈ stage.requiresList, d ∈ L) (hnot : name ∉ L) :
    GoodOrder stages (L ++ [name]) := by
  intro u v he hu
  rcases List.mem_append.mp hu with huL | hun
  · obtain ⟨hv, hlt⟩ := hGO u v he huL
    refine ⟨List.mem_append.mpr (Or.inl hv), ?_⟩
    rw [idxOf_append_left _ hv, idxOf_append_left _ huL]
    exact hlt
  · rw [List.mem_singleton] at hun
    subst hun
    obtain ⟨s2, hf2, hv2⟩ := he
    rw [hfind] at hf2
    obtain rfl : stage = s2 := Option.some.inj hf2
    have hvL : v ∈ L := hdeps v hv2
    refine ⟨List.mem_append.mpr (Or.inl hvL), ?_⟩
    rw [idxOf_append_left _ hvL, idxOf_append_right _ hnot]
    have h1 : idxOf L v < L.length := idxOf_lt_length hvL
    simp [idxOf]
    omega

theorem visit_fuel_sufficient (stages : List StageConfig) : ∀ fuel : Nat,
    (∀ name trail visiting visited, visiting.Nodup →
      (∀ v ∈ visiting, v ∈ allNames stages) → name ∈ allNames stages →
      (allNames stages).length - visiting.length < fuel →
      visitF stages fuel name trail visiting visited ≠ none)
    ∧ (∀ ds trail visiting visited, visiting.Nodup →
      (∀ v ∈ visiting, v ∈ allNames stages) → (∀ d ∈ ds, d ∈ allNames stages) →
      (allNames stages).length - visiting.length < fuel →
      visitDeps stages fuel ds trail visiting visited ≠ none) := by
  intro fuel
  induction fuel with
  | zero =>
    constructor
    · intro name trail visiting visited _ _ _ hm
      exact absurd hm (by omega)
    · intro ds trail visiting visited _ _ _ hm
      exact absurd hm (by omega)
  | succ f ih =>
    have hP : ∀ name trail visiting visited, visiting.Nodup →
        (∀ v ∈ visiting, v ∈ allNames stages) → name ∈ allNames stages →
        (allNames stages).length - visiting.length < f + 1 →
        visitF stages (f + 1) name trail visiting visited ≠ none := by
      intro name trail visiting visited hnd hsub hname hm
      rw [visitF]
      by_cases h1 : name ∈ visiting
      · simp [h1]
      · rw [if_neg h1]
        by_cases h2 : name ∈ visited
        · simp [h2]
        · rw [if_neg h2]
          cases hf : findStage stages name with
          | none => simp
          | some stage =>
            have hsmem := findStage_mem hf
            have hdeps : ∀ d ∈ stage.requiresList, d ∈ allNames stages :=
              fun d hd => dep_mem_allNames hsmem.1 hd
            have hnd2 : (name :: visiting).Nodup := List.nodup_cons.mpr ⟨h1, hnd⟩
            have hsub2 : ∀ v ∈ name :: visiting, v ∈ allNames stages := by
              intro v hv
              rcases List.mem_cons.mp hv with rfl | hv2
              · exact hname
              · exact hsub v hv2
            have hlen : (name :: visiting).length ≤ (allNames stages).length :=
              nodup_subset_length hnd2 hsub2
            have hm2 : (allNames stages).length - (name :: visiting).length < f := by
              simp only [List.length_cons] at hlen ⊢
              omega
            have hdep := ih.2 stage.requiresList (trail ++ [name]) (name :: visiting)
              visited hnd2 hsub2 hdeps hm2
            cases hv : visitDeps stages f stage.requiresList (trail ++ [name])
                (name :: visiting) visited with
            | none => exact absurd hv hdep
            | some r => cases r <;> simp [hv]
    refine ⟨hP, ?_⟩
    intro ds
    induction ds with
    | nil =>
      intro trail visiting visited _ _ _ _
      rw [visitDeps]
      simp
    | cons d ds ihds =>
      intro trail visiting visited hnd hsub hds hm
      rw [visitDeps]
      have hd1 := hP d trail visiting visited hnd hsub (hds d (by simp)) hm
      cases hv : visitF stages (f + 1) d trail visiting visited with
      | none => exact absurd hv hd1
      | some r =>
        cases r with
        | error e => simp [hv]
        | ok visitedA =>
          exact ihds trail visiting visitedA hnd hsub
            (fun x hx => hds x (List.mem_cons_of_mem d hx)) hm

theorem visit_ok_invariants (stages : List StageConfig) : ∀ fuel : Nat,
    (∀ name trail visiting visited visited1,
      visitF stages fuel name trail visiting visited = some (.ok visited1) →
      visited <+: visited1 ∧ name ∈ visited1
      ∧ (∀ x ∈ visited1, x ∈ visited ∨ x ∉ visiting)
      ∧ (GoodOrder stages visited → GoodOrder stages visited1))
    ∧ (∀ ds trail visiting visited visited1,
      visitDeps stages fuel ds trail visiting visited = some (.ok visited1) →
      visited <+: visited1 ∧ (∀ d ∈ ds, d ∈ visited1)
      ∧ (∀ x ∈ visited1, x ∈ visited ∨ x ∉ visiting)
      ∧ (GoodOrder stages visited → GoodOrder stages visited1)) := by
  intro fuel
  induction fuel with
  | zero =>
    constructor
    · intro name trail visiting visited visited1 h
      rw [visitF] at h
      exact absurd h (by simp)
    · intro ds trail visiting visited visited1 h
      cases ds with
      | nil =>
        rw [visitDeps] at h
        obtain rfl : visited = visited1 := Except.ok.inj (Option.some.inj h)
        exact ⟨List.prefix_refl _, by simp, fun x hx => Or.inl hx, id⟩
      | cons d ds =>
        rw [visitDeps, visitF] at h
        exact absurd h (by simp)
  | succ f ih =>
    have hP : ∀ name trail visiting visited visited1,
        visitF stages (f + 1) name trail visiting visited = some (.ok visited1) →
        visited <+: visited1 ∧ name ∈ visited1
        ∧ (∀ x ∈ visited1, x ∈ visited ∨ x ∉ visiting)
        ∧ (GoodOrder stages visited → GoodOrder stages visited1) := by
      intro name trail visiting visited visited1 h
      rw [visitF] at h
      by_cases h1 : name ∈ visiting
      · rw [if_pos h1] at h
        exact absurd h (by simp)
      · rw [if_neg h1] at h
        by_cases h2 : name ∈ visited
        · rw [if_pos h2] at h
          obtain rfl : visited = visited1 := Except.ok.inj (Option.some.inj h)
          exact ⟨List.prefix_refl _, h2, fun x hx => Or.inl hx, id⟩
        · rw [if_neg h2] at h
          cases hf : findStage stages name with
          | none =>
            rw [hf] at h
            obtain rfl : visited ++ [name] = visited1 :=
              Except.ok.inj (Option.some.inj h)
            refine ⟨List.prefix_append _ _, by simp, ?_, ?_⟩
            · intro x hx
              rcases List.mem_append.mp hx with hxv | hxn
              · exact Or.inl hxv
              · rw [List.mem_singleton] at hxn
                subst hxn
                exact Or.inr h1
            · intro hGO
              refine goodOrder_append_no_out hGO ?_ h2
              rintro v ⟨s, hfs, -⟩
              rw [hf] at hfs
              exact absurd hfs (by simp)
          | some stage =>
            rw [hf] at h
            have hh : (match visitDeps stages f stage.requiresList (trail ++ [name])
                  (name :: visiting) visited with
                | none => none
                | some (Except.error e) => some (Except.error e)
                | some (Except.ok visited2) => some (Except.ok (visited2 ++ [name])))
                  = some (Except.ok visited1) := h
            cases hv : visitDeps stages f stage.requiresList (trail ++ [name])
                (name :: visiting) visited with
            | none =>
              rw [hv] at hh
              exact absurd hh (by simp)
            | some r =>
              rw [hv] at hh
              cases r with
              | error e => exact absurd hh (by simp)
              | ok visited2 =>
                obtain rfl : visited2 ++ [name] = visited1 :=
                  Except.ok.inj (Option.some.inj hh)
                obtain ⟨hpre, hdeps, hnew, hGOp⟩ := ih.2 stage.requiresList _ _ _ _ hv
                have hname_not : name ∉ visited2 := by
                  intro hmem
                  rcases hnew name hmem with hv2 | hnv
                  · exact h2 hv2
                  · exact hnv (List.mem_cons_self _ _)
                refine ⟨hpre.trans (List.prefix_append _ _), by simp, ?_, ?_⟩
                · intro x hx
                  rcases List.mem_append.mp hx with hxv | hxn
                  · rcases hnew x hxv with hv2 | hnv
                    · exact Or.inl hv2
                    · exact Or.inr (fun hxx => hnv (List.mem_cons_of_mem _ hxx))
                  · rw [List.mem_singleton] at hxn
                    subst hxn
                    exact Or.inr h1
                · intro hGO
                  exact goodOrder_append_deps_done (hGOp hGO) hf
                    (fun d hd => hdeps d hd) hname_not
    refine ⟨hP, ?_⟩
    intro ds
    induction ds with
    | nil =>
      intro trail visiting visited visited1 h
      rw [visitDeps] at h
      obtain rfl : visited = visited1 := Except.ok.inj (Option.some.inj h)
      exact ⟨List.prefix_refl _, by simp, fun x hx => Or.inl hx, id⟩
    | cons d ds ihds =>
      intro trail visiting visited visited1 h
      rw [visitDeps] at h
      cases hv : visitF stages (f + 1) d trail visiting visited with
      | none =>
        rw [hv] at h
        exact absurd h (by simp)
      | some r =>
        rw [hv] at h
        cases r with
        | error e => exact absurd h (by simp)
        | ok visitedA =>
          obtain ⟨hpreA, hdA, hnewA, hGOA⟩ := hP d trail visiting visited visitedA hv
          obtain ⟨hpreB, hdB, hnewB, hGOB⟩ := ihds trail visiting visitedA visited1 h
          refine ⟨hpreA.trans hpreB, ?_, ?_, fun hGO => hGOB (hGOA hGO)⟩
          · intro x hx
            rcases List.mem_cons.mp hx with rfl | hxs
            · exact hpreB.subset hdA
            · exact hdB x hxs
          · intro x hx
            rcases hnewB x hx with hxA | hnv
            · rcases hnewA x hxA with hxv | hnv2
              · exact Or.inl hxv
              · exact Or.inr hnv2
            · exact Or.inr hnv

theorem visitAll_ok (stages : List StageConfig) (fuel : Nat) :
    ∀ (ns : List String) (visited visited1 : List String),
      visitAll stages fuel ns visited = some (.ok visited1) →
      (∀ nm ∈ ns, nm ∈ visited1)
      ∧ (GoodOrder stages visited → GoodOrder stages visited1)
      ∧ visited <+: visited1 := by
  intro ns
  induction ns with
  | nil =>
    intro visited visited1 h
    rw [visitAll] at h
    obtain rfl : visited = visited1 := Except.ok.inj (Option.some.inj h)
    exact ⟨by simp, id, List.prefix_refl _⟩
  | cons n ns ih =>
    intro visited visited1 h
    rw [visitAll] at h
    have hh : (match visitF stages fuel n [] [] visited with
        | none => none
        | some (Except.error e) => some (Except.error e)
        | some (Except.ok visitedA) => visitAll stages fuel ns visitedA)
          = some (Except.ok visited1) := h
    cases hv : visitF stages fuel n [] [] visited with
    | none =>
      rw [hv] at hh
      exact absurd hh (by simp)
    | some r =>
      rw [hv] at hh
      cases r with
      | error e => exact absurd hh (by simp)
      | ok visitedA =>
        obtain ⟨hpre, hmem, hnew, hGO1⟩ :=
          (visit_ok_invariants stages fuel).1 n [] [] visited visitedA hv
        obtain ⟨hmem2, hGO2, hpre2⟩ := ih visitedA visited1 hh
        refine ⟨?_, fun hGO => hGO2 (hGO1 hGO), hpre.trans hpre2⟩
        intro nm hnm
        rcases List.mem_cons.mp hnm with rfl | hns
        · exact hpre2.subset hmem
        · exact hmem2 nm hns

theorem visitAll_ne_none (stages : List StageConfig) :
    ∀ (ns : List String) (visited : List String),
      (∀ nm ∈ ns, nm ∈ allNames stages) →
      visitAll stages ((allNames stages).length + 1) ns visited ≠ none := by
  intro ns
  induction ns with
  | nil =>
    intro visited _
    rw [visitAll]
    simp
  | cons n ns ih =>
    intro visited hns
    rw [visitAll]
    have h1 := (visit_fuel_sufficient stages ((allNames stages).length + 1)).1
      n [] [] visited (by simp) (by simp) (hns n (by simp))
      (by simp only [List.length_nil]; omega)
    cases hv : visitF stages ((allNames stages).length + 1) n [] [] visited with
    | none => exact absurd hv h1
    | some r =>
      cases r with
      | error e => simp [hv]
      | ok visitedA =>
        have := ih visitedA (fun nm hnm => hns nm (List.mem_cons_of_mem n hnm))
        simp only [hv]
        exact this

theorem validateDag_ne_none (stages : List StageConfig) : validateDag stages ≠ none := by
  rw [validateDag]
  have hns : ∀ nm ∈ stages.map (·.name), nm ∈ allNames stages := by
    intro nm hnm
    obtain ⟨s, hs, rfl⟩ := List.mem_map.mp hnm
    exact name_mem_allNames hs
  cases hv : visitAll stages ((allNames stages).length + 1) (stages.map (·.name)) [] with
  | none => exact absurd hv (visitAll_ne_none stages (stages.map (·.name)) [] hns)
  | some r => cases r <;> simp

theorem transGen_exists_first {α : Type} {r : α → α → Prop} {a b : α}
    (h : Relation.TransGen r a b) : ∃ w, r a w := by
  induction h with
  | single e => exact ⟨_, e⟩
  | tail h e ih => exact ih

theorem validateDag_ok_acyclic {stages : List StageConfig}
    (h : validateDag stages = some (.ok ())) :
    ¬∃ n, Relation.TransGen (Edge stages) n n := by
  rw [validateDag] at h
  cases hv : visitAll stages ((allNames stages).length + 1) (stages.map (·.name)) [] with
  | none =>
    rw [hv] at h
    exact absurd h (by simp)
  | some r =>
    rw [hv] at h
    cases r with
    | error e => exact absurd h (by simp)
    | ok L =>
      obtain ⟨hnames, hGO, -⟩ := visitAll_ok stages _ _ _ _ hv
      have hGOL : GoodOrder stages L := hGO (fun u v he hu => absurd hu (by simp))
      rintro ⟨n, hcyc⟩
      obtain ⟨w, s, hfs, hw⟩ := transGen_exists_first hcyc
      have hnmem : n ∈ L := by
        obtain ⟨hsmem, hsname⟩ := findStage_mem hfs
        have := hnames s.name (List.mem_map_of_mem _ hsmem)
        rwa [hsname] at this
      have hdesc : ∀ a b, Relation.TransGen (Edge stages) a b → a ∈ L →
          b ∈ L ∧ idxOf L b < idxOf L a := by
        intro a b hab
        induction hab with
        | single e => intro ha; exact hGOL _ _ e ha
        | tail hab e ih =>
          intro ha
          obtain ⟨hb, hlt1⟩ := ih ha
          obtain ⟨hc, hlt2⟩ := hGOL _ _ e hb
          exact ⟨hc, Nat.lt_trans hlt2 hlt1⟩
      obtain ⟨-, hlt⟩ := hdesc n n hcyc hnmem
      omega

-- ── C8 ──

/-- C8: the pipeline configuration validation run by
`loadPipelineConfig` before any stage executes rejects every stage graph
containing a dependency cycle (any name from which the `requires`
relation reaches itself, in particular two stages requiring each other)
and every configuration in which some stage requires a name that is not
a stage of the pipeline. -/
theorem pipeline_validation_rejects (stages : List StageConfig) :
    ((∃ n, Relation.TransGen (Edge stages) n n) →
      ∃ e, validatePipeline stages = some (.error e))
    ∧ ((∃ s, s ∈ stages ∧ ∃ d, d ∈ s.requiresList ∧ ∀ t ∈ stages, t.name ≠ d) →
      ∃ e, validatePipeline stages = some (.error e)) := by
  constructor
  · intro hcyc
    rw [validatePipeline]
    cases hv : validateDag stages with
    | none => exact absurd hv (validateDag_ne_none stages)
    | some r =>
      cases r with
      | error e => exact ⟨e, rfl⟩
      | ok u =>
        cases u
        exact absurd hcyc (validateDag_ok_acyclic hv)
  · intro hmiss
    rw [validatePipeline]
    cases hv : validateDag stages with
    | none => exact absurd hv (validateDag_ne_none stages)
    | some r =>
      cases r with
      | error e => exact ⟨e, rfl⟩
      | ok u =>
        cases u
        have hfail : ¬(stages.all (fun s =>
            s.requiresList.all (fun d => decide (d ∈ stages.map (·.name)))) = true) := by
          intro hall
          rw [List.all_eq_true] at hall
          obtain ⟨s, hs, d, hd, hnone⟩ := hmiss
          have h2 := hall s hs
          rw [List.all_eq_true] at h2
          have h3 := h2 d hd
          rw [decide_eq_true_eq] at h3
          obtain ⟨t, ht, htn⟩ := List.mem_map.mp h3
          exact hnone t ht htn
        exact ⟨_, by rw [checkDepsExist, if_neg hfail]⟩

/-- C8, witness for `pipeline_validation_rejects`: the two-stage cycle
`A requires B, B requires A` is rejected, and a stage requiring the
nonexistent stage `C` is rejected. -/
theorem pipeline_validation_rejects_witness :
    (∃ e, validatePipeline [⟨"A", ["B"]⟩, ⟨"B", ["A"]⟩] = some (.error e))
    ∧ (∃ e, validatePipeline [⟨"A", ["C"]⟩] = some (.error e)) := by
  constructor
  · have eAB : Edge [⟨"A", ["B"]⟩, ⟨"B", ["A"]⟩] "A" "B" :=
      ⟨⟨"A", ["B"]⟩, by decide, by decide⟩
    have eBA : Edge [⟨"A", ["B"]⟩, ⟨"B", ["A"]⟩] "B" "A" :=
      ⟨⟨"B", ["A"]⟩, by decide, by decide⟩
    exact (pipeline_validation_rejects _).1
      ⟨"A", Relation.TransGen.tail (Relation.TransGen.single eAB) eBA⟩
  · exact (pipeline_validation_rejects _).2
      ⟨⟨"A", ["C"]⟩, by decide, "C", by decide, by decide⟩

end Cleave
